import Mathlib

/-!
Verification development for the amodinfo repository: a line-oriented indexer
over a module-info JSON document (src/modinfo.rs), a lazy record decoder for a
single module entry, and a blueprint source locator (src/blueprint.rs).

Rust string slices are modelled as lists of characters.  Rust compares `str`
values byte-wise over UTF-8; byte-lexicographic order over UTF-8 coincides with
code-point lexicographic order, so the character-level comparison below is a
faithful model of `str::cmp`.
-/

set_option maxRecDepth 40000

namespace Amodinfo

/-- Rust string slices, modelled as lists of characters. -/
abbrev Str := List Char

/-- Shorthand turning a Lean string literal into its character list. -/
def S (s : String) : Str := s.data

/-- Comparison of two characters by code point, as Rust compares string bytes. -/
def charCmp (a b : Char) : Ordering :=
  if a.toNat < b.toNat then .lt else if b.toNat < a.toNat then .gt else .eq

/-- Lexicographic comparison of slices: the model of Rust `str::cmp`. -/
def strCmp : Str → Str → Ordering
  | [], [] => .eq
  | [], _ :: _ => .lt
  | _ :: _, [] => .gt
  | a :: s, b :: t =>
    match charCmp a b with
    | .eq => strCmp s t
    | o => o

/-- Non-strict order induced by `strCmp` (byte-lexicographic "less or equal"). -/
def strLe (a b : Str) : Prop := strCmp a b ≠ .gt

instance : DecidableRel strLe := fun a b => by unfold strLe; infer_instance

/-- Model of Rust `str::split` on a one-character separator: the list of
substrings between occurrences of the separator (never empty). -/
def splitOn (sep : Char) : Str → List Str
  | [] => [[]]
  | c :: s =>
    if c = sep then [] :: splitOn sep s
    else
      match splitOn sep s with
      | [] => [[c]]
      | t :: ts => (c :: t) :: ts

/-- Model of Rust `str::split_terminator`: like `split`, but a trailing empty
substring (present exactly when the input is empty or ends with the
separator) is dropped. -/
def splitTerminator (sep : Char) (s : Str) : List Str :=
  let parts := splitOn sep s
  if parts.getLast? = some [] then parts.dropLast else parts

/-- Model of `crate::error::ParseError` (src/error.rs): a line number and a
message. -/
structure ParseError where
  lineno : Nat
  message : String
deriving DecidableEq, Repr

/-- Model of the body of the per-line loop of
`TryFrom<&'data str> for ModuleInfo` (src/modinfo.rs, lines 66-97): split one
body line of shape `  "NAME": ... ` into the name and the raw JSON slice, or
report which check failed.  The line number is attached by the caller. -/
def parseLine (line : Str) : Except String (Str × Str) :=
  if (S "  \"").isPrefixOf line then
    let rest := line.drop 3
    match rest.findIdx? (fun c => c = '"') with
    | none => .error "<name> element not terminated"
    | some nameEnd =>
      let name := rest.take nameEnd
      let rest2 := rest.drop nameEnd
      if (S "\": \x7b").isPrefixOf rest2 then
        let raw := rest2.drop 3
        let raw2 := if raw.getLast? = some ',' then raw.dropLast else raw
        if raw2.getLast? = some '\x7d' then .ok (name, raw2)
        else .error "<json> element not terminated"
      else .error "bad <name> terminator"
  else .error "no <name> element"

/-- The loop of `TryFrom` over the body lines: parse each line in order, with
`k` the 1-based document line number of the first line of `ls`; stop at the
first failing line. -/
def parseBody : List Str → Nat → Except ParseError (List (Str × Str))
  | [], _ => .ok []
  | l :: ls, k =>
    match parseLine l with
    | .error msg => .error ⟨k, msg⟩
    | .ok pair =>
      match parseBody ls (k + 1) with
      | .error e => .error e
      | .ok rest => .ok (pair :: rest)

/-- Model of `modinfo::ModuleInfo`: the ordered list of `(name, raw JSON)`
pairs extracted from the document. -/
structure ModuleInfo where
  data : List (Str × Str)
deriving DecidableEq, Repr

/-- Model of `TryFrom<&'data str> for ModuleInfo` (src/modinfo.rs, lines
40-101): check the `"\x7b\n"` prefix, split the rest into lines, pop and check
the final `"\x7d"` line, and parse every body line. -/
def ModuleInfo.try_from (data : Str) : Except ParseError ModuleInfo :=
  if (S "\x7b\n").isPrefixOf data then
    let lines := (splitTerminator '\n' data).drop 1
    let nLines := lines.length
    match lines.getLast? with
    | none => .error ⟨1, "too few lines"⟩
    | some last =>
      if last = S "\x7d" then
        match parseBody lines.dropLast 2 with
        | .error e => .error e
        | .ok pairs => .ok ⟨pairs⟩
      else .error ⟨nLines, "bad last line"⟩
  else .error ⟨1, "bad first line"⟩

/-- Model of `ModuleInfo::module_names`: the first component of every pair, in
index order. -/
def ModuleInfo.module_names (m : ModuleInfo) : List Str :=
  m.data.map Prod.fst

/-- Model of Rust `slice::binary_search_by` on the pair list, comparing
`pair.0.cmp(name)`.  The loop keeps `left < right` bounds with
`mid = left + (right - left) / 2`; `Ok(mid)` when the comparator answers
`Equal`, `Err` (modelled as `none`, which is all `find` uses) when the range
empties.  The structurally decreasing `fuel` argument dominates the iteration
count (each step strictly shrinks `right - left`), so any `fuel` at least
`right - left + 1` gives the loop's exact behaviour; `find` passes such fuel. -/
def bsearchGo (data : List (Str × Str)) (key : Str) : Nat → Nat → Nat → Option Nat
  | 0, _, _ => none
  | fuel + 1, left, right =>
    if left < right then
      let mid := left + (right - left) / 2
      match strCmp (data.getD mid ([], [])).1 key with
      | .lt => bsearchGo data key fuel (mid + 1) right
      | .gt => bsearchGo data key fuel left mid
      | .eq => some mid
    else none

/-- Entry point for the binary search over the whole list. -/
def bsearchIdx (data : List (Str × Str)) (key : Str) : Option Nat :=
  bsearchGo data key (data.length + 1) 0 data.length

/-!
Model of `serde_json::from_str::<Module>`: a JSON value parser followed by the
serde-derived struct deserializer.  JSON strings are stored with their escapes
already decoded together with a flag recording whether any escape occurred,
because deserializing into a borrowed `&str` fails exactly when the string
needed unescaping.  Numbers keep their raw text (they can only occur in
ignored fields).
-/

/-- JSON whitespace. -/
def jsonWs (c : Char) : Bool :=
  c = ' ' || c = '\t' || c = '\n' || c = '\r'

/-- A parsed JSON value. -/
inductive Json where
  | null
  | bool (b : Bool)
  | num (raw : Str)
  | str (s : Str) (esc : Bool)
  | arr (elems : List Json)
  | obj (fields : List (Str × Json))

/-- Value of one hexadecimal digit. -/
def hexVal (c : Char) : Option Nat :=
  if 48 ≤ c.toNat ∧ c.toNat ≤ 57 then some (c.toNat - 48)
  else if 97 ≤ c.toNat ∧ c.toNat ≤ 102 then some (c.toNat - 87)
  else if 65 ≤ c.toNat ∧ c.toNat ≤ 70 then some (c.toNat - 55)
  else none

/-- Four hexadecimal digits. -/
def parseHex4 : Str → Option (Nat × Str)
  | a :: b :: c :: d :: rest =>
    match hexVal a, hexVal b, hexVal c, hexVal d with
    | some x, some y, some z, some w => some ((((x * 16 + y) * 16 + z) * 16 + w), rest)
    | _, _, _, _ => none
  | _ => none

/-- Single-character JSON escapes. -/
def escChar (e : Char) : Option Char :=
  if e = '"' then some '"'
  else if e = '\\' then some '\\'
  else if e = '/' then some '/'
  else if e = 'b' then some '\x08'
  else if e = 'f' then some '\x0c'
  else if e = 'n' then some '\n'
  else if e = 'r' then some '\r'
  else if e = 't' then some '\t'
  else none

/-- Body of a JSON string, after the opening quote: the decoded characters, a
flag telling whether any escape sequence occurred, and the input after the
closing quote.  Unescaped control characters, bad escapes and lone surrogates
are rejected, as serde_json rejects them. -/
def parseStringBody : Nat → Str → Option (Str × Bool × Str)
  | 0, _ => none
  | fuel + 1, s =>
    match s with
    | [] => none
    | '"' :: r => some ([], false, r)
    | '\\' :: e :: r =>
      match escChar e with
      | some c =>
        match parseStringBody fuel r with
        | some (cs, _, r2) => some (c :: cs, true, r2)
        | none => none
      | none =>
        if e = 'u' then
          match parseHex4 r with
          | none => none
          | some (n, r2) =>
            if 0xd800 ≤ n ∧ n ≤ 0xdbff then
              match r2 with
              | '\\' :: 'u' :: r3 =>
                match parseHex4 r3 with
                | some (n2, r4) =>
                  if 0xdc00 ≤ n2 ∧ n2 ≤ 0xdfff then
                    match parseStringBody fuel r4 with
                    | some (cs, _, r5) =>
                      some (Char.ofNat (0x10000 + (n - 0xd800) * 0x400 + (n2 - 0xdc00)) :: cs,
                            true, r5)
                    | none => none
                  else none
                | none => none
              | _ => none
            else if 0xdc00 ≤ n ∧ n ≤ 0xdfff then none
            else
              match parseStringBody fuel r2 with
              | some (cs, _, r3) => some (Char.ofNat n :: cs, true, r3)
              | none => none
        else none
    | c :: r =>
      if c.toNat < 0x20 then none
      else
        match parseStringBody fuel r with
        | some (cs, esc, r2) => some (c :: cs, esc, r2)
        | none => none

/-- One or more decimal digits. -/
def digits1 (s : Str) : Option (Str × Str) :=
  let d := s.takeWhile Char.isDigit
  if d = [] then none else some (d, s.drop d.length)

/-- Optional fraction part of a JSON number. -/
def parseFrac (s : Str) : Option (Str × Str) :=
  match s with
  | '.' :: r =>
    match digits1 r with
    | some (d, r2) => some ('.' :: d, r2)
    | none => none
  | _ => some ([], s)

/-- Optional exponent part of a JSON number. -/
def parseExp (s : Str) : Option (Str × Str) :=
  match s with
  | e :: r =>
    if e = 'e' ∨ e = 'E' then
      let (sg, r1) : Str × Str :=
        match r with
        | '+' :: r2 => (['+'], r2)
        | '-' :: r2 => (['-'], r2)
        | _ => ([], r)
      match digits1 r1 with
      | some (d, r2) => some (e :: (sg ++ d), r2)
      | none => none
    else some ([], s)
  | [] => some ([], s)

/-- A JSON number per the JSON grammar, keeping its raw text. -/
def parseNumber (s : Str) : Option (Json × Str) :=
  let (sg, s1) : Str × Str := match s with | '-' :: r => (['-'], r) | _ => ([], s)
  match s1 with
  | [] => none
  | c :: r =>
    let int? : Option (Str × Str) :=
      if c = '0' then some (['0'], r)
      else if c.isDigit then digits1 (c :: r)
      else none
    match int? with
    | none => none
    | some (ip, r1) =>
      match parseFrac r1 with
      | none => none
      | some (fp, r2) =>
        match parseExp r2 with
        | none => none
        | some (ep, r3) => some (.num (sg ++ ip ++ fp ++ ep), r3)

/-- Mode of the JSON value parser: a value, the tail of an array, or the tail
of an object (each tail carrying the elements accumulated so far, reversed). -/
inductive PMode where
  | value
  | arrTail (acc : List Json)
  | objTail (acc : List (Str × Json))

/-- Recursive-descent JSON parser, structurally recursive on a fuel argument.
Every recursive call follows the consumption of at least one input character,
so any fuel exceeding the input length gives the parser's exact behaviour;
`jsonFromStr` passes such fuel. -/
def parseV : Nat → PMode → Str → Option (Json × Str)
  | 0, _, _ => none
  | fuel + 1, .value, s =>
    match s.dropWhile jsonWs with
    | [] => none
    | c :: r =>
      if c = 'n' then
        if (S "ull").isPrefixOf r then some (.null, r.drop 3) else none
      else if c = 't' then
        if (S "rue").isPrefixOf r then some (.bool true, r.drop 3) else none
      else if c = 'f' then
        if (S "alse").isPrefixOf r then some (.bool false, r.drop 4) else none
      else if c = '"' then
        match parseStringBody (r.length + 1) r with
        | some (cs, esc, r2) => some (.str cs esc, r2)
        | none => none
      else if c = '[' then
        match r.dropWhile jsonWs with
        | ']' :: r2 => some (.arr [], r2)
        | _ => parseV fuel (.arrTail []) r
      else if c = '\x7b' then
        match r.dropWhile jsonWs with
        | '\x7d' :: r2 => some (.obj [], r2)
        | _ => parseV fuel (.objTail []) r
      else parseNumber (c :: r)
  | fuel + 1, .arrTail acc, s =>
    match parseV fuel .value s with
    | none => none
    | some (v, r) =>
      match r.dropWhile jsonWs with
      | ',' :: r2 => parseV fuel (.arrTail (v :: acc)) r2
      | ']' :: r2 => some (.arr (v :: acc).reverse, r2)
      | _ => none
  | fuel + 1, .objTail acc, s =>
    match s.dropWhile jsonWs with
    | '"' :: r =>
      match parseStringBody (r.length + 1) r with
      | none => none
      | some (k, _, r2) =>
        match r2.dropWhile jsonWs with
        | ':' :: r3 =>
          match parseV fuel .value r3 with
          | none => none
          | some (v, r4) =>
            match r4.dropWhile jsonWs with
            | ',' :: r5 => parseV fuel (.objTail ((k, v) :: acc)) r5
            | '\x7d' :: r5 => some (.obj ((k, v) :: acc).reverse, r5)
            | _ => none
        | _ => none
    | _ => none

/-- Parse a complete JSON document: one value followed only by whitespace, as
`serde_json::from_str` requires. -/
def jsonFromStr (s : Str) : Option Json :=
  match parseV (s.length + 2) .value s with
  | some (v, rest) => if rest.dropWhile jsonWs = [] then some v else none
  | none => none

/-- Model of `modinfo::Module` (src/modinfo.rs, lines 9-19).  The Rust field
`name` carries `#[serde(rename = "module_name")]`, so its wire key is
`module_name`; the Rust field `class` is spelled `class_` here because `class`
is a Lean keyword.  Every field is a required field: the derive carries no
`#[serde(default)]`. -/
structure Module where
  name : Str
  path : List Str
  installed : List Str
  dependencies : List Str
  class_ : List Str
  tags : List Str
  test_config : List Str
deriving DecidableEq, Repr

/-- Deserialize a borrowed `&'data str`: the JSON string must not have needed
any escape processing, since the result borrows from the input. -/
def getStr : Json → Except String Str
  | .str s false => .ok s
  | .str _ true => .error "expected borrowed str"
  | _ => .error "invalid type: expected str"

/-- Deserialize a `Vec<&'data str>`. -/
def getStrList : Json → Except String (List Str)
  | .arr es => es.mapM getStr
  | _ => .error "invalid type: expected array"

/-- Partially-filled module record used while walking the object's fields, as
the serde-derived visitor does. -/
structure ModuleAcc where
  name : Option Str := none
  path : Option (List Str) := none
  installed : Option (List Str) := none
  dependencies : Option (List Str) := none
  class_ : Option (List Str) := none
  tags : Option (List Str) := none
  test_config : Option (List Str) := none

/-- The wire keys the derived deserializer recognizes, in declaration order. -/
def wireKeys : List Str :=
  [S "module_name", S "path", S "installed", S "dependencies", S "class",
   S "tags", S "test_config"]

/-- Process one `(key, value)` member: a known key fills its field (duplicates
are an error, as in serde), any other key is ignored. -/
def setField (st : ModuleAcc) (k : Str) (v : Json) : Except String ModuleAcc :=
  if k = S "module_name" then
    match st.name with
    | some _ => .error "duplicate field module_name"
    | none =>
      match getStr v with
      | .error e => .error e
      | .ok x => .ok { st with name := some x }
  else if k = S "path" then
    match st.path with
    | some _ => .error "duplicate field path"
    | none =>
      match getStrList v with
      | .error e => .error e
      | .ok x => .ok { st with path := some x }
  else if k = S "installed" then
    match st.installed with
    | some _ => .error "duplicate field installed"
    | none =>
      match getStrList v with
      | .error e => .error e
      | .ok x => .ok { st with installed := some x }
  else if k = S "dependencies" then
    match st.dependencies with
    | some _ => .error "duplicate field dependencies"
    | none =>
      match getStrList v with
      | .error e => .error e
      | .ok x => .ok { st with dependencies := some x }
  else if k = S "class" then
    match st.class_ with
    | some _ => .error "duplicate field class"
    | none =>
      match getStrList v with
      | .error e => .error e
      | .ok x => .ok { st with class_ := some x }
  else if k = S "tags" then
    match st.tags with
    | some _ => .error "duplicate field tags"
    | none =>
      match getStrList v with
      | .error e => .error e
      | .ok x => .ok { st with tags := some x }
  else if k = S "test_config" then
    match st.test_config with
    | some _ => .error "duplicate field test_config"
    | none =>
      match getStrList v with
      | .error e => .error e
      | .ok x => .ok { st with test_config := some x }
  else .ok st

/-- Walk the object's members in order. -/
def decodeFields : List (Str × Json) → ModuleAcc → Except String ModuleAcc
  | [], st => .ok st
  | (k, v) :: rest, st =>
    match setField st k v with
    | .error e => .error e
    | .ok st2 => decodeFields rest st2

/-- After the walk, every field must have been seen: a missing field is a
decode error, checked in declaration order as the derive does. -/
def finishModule (st : ModuleAcc) : Except String Module :=
  match st.name with
  | none => .error "missing field module_name"
  | some nm =>
    match st.path with
    | none => .error "missing field path"
    | some p =>
      match st.installed with
      | none => .error "missing field installed"
      | some ins =>
        match st.dependencies with
        | none => .error "missing field dependencies"
        | some dep =>
          match st.class_ with
          | none => .error "missing field class"
          | some cl =>
            match st.tags with
            | none => .error "missing field tags"
            | some tg =>
              match st.test_config with
              | none => .error "missing field test_config"
              | some tc => .ok ⟨nm, p, ins, dep, cl, tg, tc⟩

/-- Deserialize a `Module` from a parsed JSON value: it must be an object. -/
def deserializeModule (j : Json) : Except String Module :=
  match j with
  | .obj kvs =>
    match decodeFields kvs {} with
    | .error e => .error e
    | .ok st => finishModule st
  | _ => .error "invalid type: expected object"

/-- Model of `serde_json::from_str::<Module>` on one raw payload slice. -/
def from_str (s : Str) : Except String Module :=
  match jsonFromStr s with
  | none => .error "syntax error"
  | some j => deserializeModule j

/-- Model of `ModuleInfo::find` (src/modinfo.rs, lines 26-34): binary-search
the pair list by name; on a hit, decode that entry's payload, wrapping a
decode failure in a `ParseError` whose line number is the entry's index plus
two (the omitted first line, and 1-based counting). -/
def ModuleInfo.find (m : ModuleInfo) (name : Str) : Option (Except ParseError Module) :=
  match bsearchIdx m.data name with
  | none => none
  | some i =>
    let payload := (m.data.getD i ([], [])).2
    some (match from_str payload with
          | .ok md => .ok md
          | .error e => .error ⟨i + 2, "bad JSON: " ++ e⟩)

/-- Whether an `Except` result is a success. -/
def exceptIsOk : Except ε α → Bool
  | .ok _ => true
  | .error _ => false

/-!
Model of `blueprint::find_module_source` (src/blueprint.rs).  The first
regular expression is the fixed pattern matching a rule block: optional
horizontal whitespace, an identifier of word characters, optional whitespace,
an opening brace, then — lazily — up to the first closing brace standing at
the start of a line.  It is translated into a direct scanner implementing the
regex crate's leftmost, non-overlapping iteration for this pattern.  The
second pattern is built by interpolating the module name; its compilation is
modelled conservatively: it is taken to succeed exactly when every character
of the name is a self-matching literal of regex syntax (alphanumerics and a
few punctuation characters), in which case the pattern matches a line holding
`name:` and the name in quotes, literally.  The real library also accepts
some names outside this set (for example names containing `.`), where the
match is then not the literal one modelled here; every theorem below either
assumes a literal-safe name or instantiates at a name (such as `(`) on which
the real library's compilation also fails.
-/

/-- Horizontal whitespace, the character class at the start of the block
pattern. -/
def horizWs (c : Char) : Bool := c = ' ' || c = '\t'

/-- Word characters, the identifier character class of the block pattern. -/
def wordChar (c : Char) : Bool := c.isAlphanum || c = '_'

/-- Unicode whitespace, the regex crate's meaning of a whitespace class
escape in a Unicode pattern. -/
def regexWs (c : Char) : Bool :=
  c = ' ' || c = '\t' || c = '\n' || c = '\r' || c = '\x0b' || c = '\x0c' ||
  c = '\x85' || c = '\xa0' || c = '\u1680' ||
  (0x2000 ≤ c.toNat && c.toNat ≤ 0x200a) ||
  c = '\u2028' || c = '\u2029' || c = '\u202f' || c = '\u205f' || c = '\u3000'

/-- Index, within the text following the opening brace, of the first closing
brace that stands at the start of a line (that is, right after a newline). -/
def findCloseBrace : Str → Option Nat
  | a :: b :: rest =>
    if a = '\n' ∧ b = '\x7d' then some 1
    else
      match findCloseBrace (b :: rest) with
      | some k => some (k + 1)
      | none => none
  | _ => none

/-- Length of the block-pattern match starting exactly at the head of `s`, if
any: horizontal whitespace, at least one word character, whitespace, an
opening brace, and everything up to the first line-initial closing brace. -/
def matchAt (s : Str) : Option Nat :=
  let t1 := s.dropWhile horizWs
  let t2 := t1.dropWhile wordChar
  if t1.length = t2.length then none
  else
    let t3 := t2.dropWhile regexWs
    match t3 with
    | c :: t4 =>
      if c = '\x7b' then
        match findCloseBrace t4 with
        | some k => some (s.length - t4.length + k + 1)
        | none => none
      else none
    | [] => none

/-- The successive non-overlapping block matches of the haystack, leftmost
first, as `captures_iter` yields them.  Fuel dominates the iteration count:
every step either advances by one character or consumes a whole (nonempty)
match. -/
def blockMatches : Nat → Str → List Str
  | 0, _ => []
  | fuel + 1, s =>
    match s with
    | [] => []
    | _ :: rest =>
      match matchAt s with
      | some len => s.take len :: blockMatches fuel (s.drop len)
      | none => blockMatches fuel rest

/-- Whether the name pattern matches at this position (which is at the start
of a line): whitespace, the literal `name:`, whitespace, and the module name
in double quotes. -/
def nameLineAt (s name : Str) : Bool :=
  let s1 := s.dropWhile regexWs
  (S "name:").isPrefixOf s1 &&
    ('"' :: (name ++ ['"'])).isPrefixOf ((s1.drop 5).dropWhile regexWs)

/-- Scan every line start of the block for the name pattern. -/
def nameLineGo : Str → Bool → Str → Bool
  | [], _, _ => false
  | c :: rest, atStart, name =>
    (atStart && nameLineAt (c :: rest) name) || nameLineGo rest (c = '\n') name

/-- Whether the block's text contains a `name: "<module_name>"` line. -/
def nameLineMatch (block name : Str) : Bool :=
  nameLineGo block true name

/-- First block of the iteration whose text contains the name line. -/
def firstMatching : List Str → Str → Option Str
  | [], _ => none
  | b :: bs, nm => if nameLineMatch b nm then some b else firstMatching bs nm

/-- Characters that are self-matching literals of regex syntax: for names
made only of these, compiling the interpolated name pattern succeeds and the
pattern matches the name literally. -/
def regexLiteralChar (c : Char) : Bool :=
  c.isAlphanum || c = ' ' || c = '_' || c = '-' || c = ',' || c = ':' ||
  c = ';' || c = '/' || c = '='

/-- Model of `blueprint::find_module_source` (src/blueprint.rs, lines 5-16):
compile the name pattern (an `Err` when the interpolated name does not form a
valid pattern, as for a name holding an unmatched parenthesis), then return
the first block match containing the name line, or `None`. -/
def find_module_source (haystack name : Str) : Except String (Option Str) :=
  if name.all regexLiteralChar then
    .ok (firstMatching (blockMatches (haystack.length + 1) haystack) name)
  else .error "regex parse error"

/-!
Order theory of `strCmp`: it is the comparison of a linear order, which is
what the correctness of binary search rests on.
-/

theorem uint32_toNat_inj {a b : UInt32} (h : a.toNat = b.toNat) : a = b := by
  cases a; cases b
  simp only [UInt32.toNat] at h
  congr 1
  exact BitVec.eq_of_toFin_eq (Fin.ext h)

theorem charToNat_inj {a b : Char} (h : a.toNat = b.toNat) : a = b :=
  Char.ext (uint32_toNat_inj h)

theorem charCmp_eq_iff {a b : Char} : charCmp a b = .eq ↔ a = b := by
  unfold charCmp
  split_ifs with h1 h2
  · constructor
    · intro h; cases h
    · intro h; subst h; omega
  · constructor
    · intro h; cases h
    · intro h; subst h; omega
  · constructor
    · intro _; exact charToNat_inj (by omega)
    · intro _; rfl

theorem charCmp_lt_iff {a b : Char} : charCmp a b = .lt ↔ a.toNat < b.toNat := by
  unfold charCmp
  split_ifs with h1 h2 <;> simp_all

theorem charCmp_gt_iff {a b : Char} : charCmp a b = .gt ↔ b.toNat < a.toNat := by
  unfold charCmp
  split_ifs with h1 h2 <;> simp_all <;> omega

theorem strCmp_self (a : Str) : strCmp a a = .eq := by
  induction a with
  | nil => rfl
  | cons x s ih =>
    simp only [strCmp, charCmp_eq_iff.mpr rfl, ih]

theorem strCmp_eq_iff {a b : Str} : strCmp a b = .eq ↔ a = b := by
  constructor
  · intro h
    induction a generalizing b with
    | nil => cases b with
      | nil => rfl
      | cons y t => simp [strCmp] at h
    | cons x s ih =>
      cases b with
      | nil => simp [strCmp] at h
      | cons y t =>
        simp only [strCmp] at h
        cases hc : charCmp x y with
        | lt => rw [hc] at h; cases h
        | gt => rw [hc] at h; cases h
        | eq =>
          rw [hc] at h
          rw [charCmp_eq_iff.mp hc, ih h]
  · intro h; subst h; exact strCmp_self a

theorem strCmp_lt_gt {a b : Str} : strCmp a b = .lt ↔ strCmp b a = .gt := by
  induction a generalizing b with
  | nil => cases b <;> simp [strCmp]
  | cons x s ih =>
    cases b with
    | nil => simp [strCmp]
    | cons y t =>
      simp only [strCmp]
      cases hc : charCmp x y with
      | lt =>
        have : charCmp y x = .gt := charCmp_gt_iff.mpr (charCmp_lt_iff.mp hc)
        simp [this]
      | gt =>
        have : charCmp y x = .lt := charCmp_lt_iff.mpr (charCmp_gt_iff.mp hc)
        simp [this]
      | eq =>
        have hyx : charCmp y x = .eq := charCmp_eq_iff.mpr (charCmp_eq_iff.mp hc).symm
        simp [hyx, ih]

theorem strCmp_trans_le_lt {a b c : Str} (h1 : strCmp a b ≠ .gt) (h2 : strCmp b c = .lt) :
    strCmp a c = .lt := by
  induction a generalizing b c with
  | nil =>
    cases c with
    | nil =>
      exfalso
      cases b with
      | nil => simp [strCmp] at h2
      | cons y t => simp [strCmp] at h2
    | cons z u => simp [strCmp]
  | cons x s ih =>
    cases b with
    | nil => simp [strCmp] at h1
    | cons y t =>
      cases c with
      | nil => simp [strCmp] at h2
      | cons z u =>
        simp only [strCmp] at h1 h2 ⊢
        cases hxy : charCmp x y with
        | gt => rw [hxy] at h1; exact absurd rfl h1
        | lt =>
          rw [hxy] at h1
          cases hyz : charCmp y z with
          | gt => rw [hyz] at h2; cases h2
          | eq =>
            have hxz : charCmp x z = .lt := by
              rw [← charCmp_eq_iff.mp hyz]; exact hxy
            rw [hxz]
          | lt =>
            have : charCmp x z = .lt := by
              rw [charCmp_lt_iff] at hxy hyz ⊢; omega
            rw [this]
        | eq =>
          rw [hxy] at h1
          cases hyz : charCmp y z with
          | gt => rw [hyz] at h2; cases h2
          | eq =>
            rw [hyz] at h2
            have hxz : charCmp x z = .eq :=
              charCmp_eq_iff.mpr ((charCmp_eq_iff.mp hxy).trans (charCmp_eq_iff.mp hyz))
            rw [hxz]
            exact ih h1 h2
          | lt =>
            have hxz : charCmp x z = .lt := by
              rw [charCmp_eq_iff.mp hxy]; exact hyz
            rw [hxz]

theorem strCmp_trans_lt_le {a b c : Str} (h1 : strCmp a b = .lt) (h2 : strCmp b c ≠ .gt) :
    strCmp a c = .lt := by
  induction a generalizing b c with
  | nil =>
    cases c with
    | nil =>
      exfalso
      cases b with
      | nil => simp [strCmp] at h1
      | cons y t => simp [strCmp] at h2
    | cons z u => simp [strCmp]
  | cons x s ih =>
    cases b with
    | nil => simp [strCmp] at h1
    | cons y t =>
      cases c with
      | nil => simp [strCmp] at h2
      | cons z u =>
        simp only [strCmp] at h1 h2 ⊢
        cases hxy : charCmp x y with
        | gt => rw [hxy] at h1; cases h1
        | lt =>
          rw [hxy] at h1
          cases hyz : charCmp y z with
          | gt => rw [hyz] at h2; exact absurd rfl h2
          | eq =>
            have hxz : charCmp x z = .lt := by
              rw [← charCmp_eq_iff.mp hyz]; exact hxy
            rw [hxz]
          | lt =>
            have : charCmp x z = .lt := by
              rw [charCmp_lt_iff] at hxy hyz ⊢; omega
            rw [this]
        | eq =>
          rw [hxy] at h1
          cases hyz : charCmp y z with
          | gt => rw [hyz] at h2; exact absurd rfl h2
          | eq =>
            rw [hyz] at h2
            have hxz : charCmp x z = .eq :=
              charCmp_eq_iff.mpr ((charCmp_eq_iff.mp hxy).trans (charCmp_eq_iff.mp hyz))
            rw [hxz]
            exact ih h1 h2
          | lt =>
            have hxz : charCmp x z = .lt := by
              rw [charCmp_eq_iff.mp hxy]; exact hyz
            rw [hxz]

theorem strCmp_gt_of_le_of_gt {a b c : Str} (h1 : strLe a b) (h2 : strCmp a c = .gt) :
    strCmp b c = .gt := by
  rw [← strCmp_lt_gt] at h2 ⊢
  exact strCmp_trans_lt_le h2 h1

/-!
Correctness of the binary search.
-/

/-- On a list whose names are sorted, the search loop answers `none` exactly
when no index of the open range `[left, right)` carries the key. -/
theorem bsearchGo_none_iff (data : List (Str × Str)) (key : Str)
    (hs : ∀ i j : Nat, i ≤ j → j < data.length →
      strLe (data.getD i ([], [])).1 (data.getD j ([], [])).1) :
    ∀ fuel left right, right - left < fuel → right ≤ data.length →
      (bsearchGo data key fuel left right = none ↔
        ∀ i, left ≤ i → i < right → (data.getD i ([], [])).1 ≠ key) := by
  intro fuel
  induction fuel with
  | zero => intro left right hf _; omega
  | succ fuel ih =>
    intro left right hf hr
    by_cases hlr : left < right
    · have hd1 : (right - left) / 2 < right - left := Nat.div_lt_self (by omega) (by omega)
      simp only [bsearchGo, if_pos hlr]
      cases hcmp : strCmp (data.getD (left + (right - left) / 2) ([], [])).1 key with
      | lt =>
        rw [ih (left + (right - left) / 2 + 1) right (by omega) hr]
        constructor
        · intro h i hi1 hi2
          by_cases him : left + (right - left) / 2 + 1 ≤ i
          · exact h i him hi2
          · have hle := hs i (left + (right - left) / 2) (by omega) (by omega)
            have hlt : strCmp (data.getD i ([], [])).1 key = .lt :=
              strCmp_trans_le_lt hle hcmp
            intro hk
            rw [hk, strCmp_self] at hlt
            cases hlt
        · intro h i hi1 hi2
          exact h i (by omega) hi2
      | gt =>
        rw [ih left (left + (right - left) / 2) (by omega) (by omega)]
        constructor
        · intro h i hi1 hi2
          by_cases him : i < left + (right - left) / 2
          · exact h i hi1 him
          · have hle := hs (left + (right - left) / 2) i (by omega) (by omega)
            have hgt : strCmp (data.getD i ([], [])).1 key = .gt :=
              strCmp_gt_of_le_of_gt hle hcmp
            intro hk
            rw [hk, strCmp_self] at hgt
            cases hgt
        · intro h i hi1 hi2
          exact h i hi1 (by omega)
      | eq =>
        refine iff_of_false (by simp) ?_
        intro h
        exact h _ (by omega) (by omega) (strCmp_eq_iff.mp hcmp)
    · refine iff_of_true (by simp only [bsearchGo, if_neg hlr]) ?_
      intro i hi1 hi2
      omega

/-- Whatever the sortedness of the list, a `some` answer points inside the
range at an entry whose name equals the key. -/
theorem bsearchGo_some (data : List (Str × Str)) (key : Str) :
    ∀ fuel left right i, bsearchGo data key fuel left right = some i →
      left ≤ i ∧ i < right ∧ strCmp (data.getD i ([], [])).1 key = .eq := by
  intro fuel
  induction fuel with
  | zero => intro l r i h; cases h
  | succ fuel ih =>
    intro l r i h
    by_cases hlr : l < r
    · have hd1 : (r - l) / 2 < r - l := Nat.div_lt_self (by omega) (by omega)
      simp only [bsearchGo, if_pos hlr] at h
      cases hcmp : strCmp (data.getD (l + (r - l) / 2) ([], [])).1 key with
      | lt =>
        rw [hcmp] at h
        have := ih _ _ _ h
        exact ⟨by omega, this.2.1, this.2.2⟩
      | gt =>
        rw [hcmp] at h
        have := ih _ _ _ h
        exact ⟨this.1, by omega, this.2.2⟩
      | eq =>
        rw [hcmp] at h
        injection h with h
        subst h
        exact ⟨by omega, by omega, hcmp⟩
    · simp only [bsearchGo, if_neg hlr] at h
      cases h

/-- A `Pairwise strLe` hypothesis on the name listing, transported to the
index form the binary-search lemmas use. -/
theorem names_sorted_getD (m : ModuleInfo) (hs : List.Pairwise strLe m.module_names) :
    ∀ i j, i ≤ j → j < m.data.length →
      strLe (m.data.getD i ([], [])).1 (m.data.getD j ([], [])).1 := by
  intro i j hij hj
  have hlen : m.module_names.length = m.data.length := List.length_map _ _
  rcases Nat.eq_or_lt_of_le hij with h | h
  · subst h
    unfold strLe
    rw [strCmp_self]
    simp
  · have hp := List.pairwise_iff_get.mp hs ⟨i, by omega⟩ ⟨j, by omega⟩ (Fin.mk_lt_mk.mpr h)
    have e1 : m.module_names.get ⟨i, by omega⟩ = (m.data.getD i ([], [])).1 := by
      rw [List.getD_eq_getElem _ _ (by omega)]
      simp [ModuleInfo.module_names]
    have e2 : m.module_names.get ⟨j, by omega⟩ = (m.data.getD j ([], [])).1 := by
      rw [List.getD_eq_getElem _ _ (by omega)]
      simp [ModuleInfo.module_names]
    rw [e1, e2] at hp
    exact hp

/-- Binary search over a sorted index misses exactly the keys absent from the
name listing. -/
theorem bsearchIdx_none_iff (m : ModuleInfo) (key : Str)
    (hs : List.Pairwise strLe m.module_names) :
    bsearchIdx m.data key = none ↔ key ∉ m.module_names := by
  unfold bsearchIdx
  rw [bsearchGo_none_iff m.data key (names_sorted_getD m hs) (m.data.length + 1) 0
      m.data.length (by omega) (le_refl _)]
  constructor
  · intro h hmem
    rw [ModuleInfo.module_names, List.mem_map] at hmem
    obtain ⟨p, hp, hpk⟩ := hmem
    rw [List.mem_iff_getElem] at hp
    obtain ⟨i, hilen, hig⟩ := hp
    refine h i (by omega) hilen ?_
    rw [List.getD_eq_getElem _ _ hilen, hig, hpk]
  · intro h i _ hilen hk
    apply h
    rw [ModuleInfo.module_names, List.mem_map]
    refine ⟨m.data.getD i ([], []), ?_, hk⟩
    rw [List.getD_eq_getElem _ _ hilen]
    exact List.getElem_mem hilen

/-!
Structure of `try_from` and `find`.
-/

/-- A lookup answers `none` exactly when the binary search misses. -/
theorem find_none_iff_bsearch (m : ModuleInfo) (key : Str) :
    m.find key = none ↔ bsearchIdx m.data key = none := by
  unfold ModuleInfo.find
  cases h : bsearchIdx m.data key <;> simp

/-- A successful body parse keeps one pair per line, in order, each pair the
parse of its line. -/
theorem parseBody_ok_spec :
    ∀ (ls : List Str) (k : Nat) (ps : List (Str × Str)), parseBody ls k = .ok ps →
      ps.length = ls.length ∧
      ∀ i, i < ls.length → parseLine (ls.getD i []) = .ok (ps.getD i ([], [])) := by
  intro ls
  induction ls with
  | nil =>
    intro k ps h
    injection h with h
    subst h
    exact ⟨rfl, fun i hi => by simp at hi⟩
  | cons l ls ih =>
    intro k ps h
    simp only [parseBody] at h
    cases hl : parseLine l with
    | error msg => rw [hl] at h; cases h
    | ok pair =>
      rw [hl] at h
      cases hb : parseBody ls (k + 1) with
      | error e => rw [hb] at h; cases h
      | ok rest =>
        rw [hb] at h
        injection h with h
        subst h
        obtain ⟨hlen, hget⟩ := ih (k + 1) rest hb
        refine ⟨by simp [hlen], ?_⟩
        intro i hi
        cases i with
        | zero => simpa using hl
        | succ i => simpa using hget i (by simpa using hi)

/-- If the first `j` lines parse and line `j` fails with `msg`, the body parse
fails at line number `k + j` with that message. -/
theorem parseBody_error_spec :
    ∀ (ls : List Str) (k j : Nat) (msg : String), j < ls.length →
      (∀ i, i < j → exceptIsOk (parseLine (ls.getD i [])) = true) →
      parseLine (ls.getD j []) = .error msg →
      parseBody ls k = .error ⟨k + j, msg⟩ := by
  intro ls
  induction ls with
  | nil => intro k j msg h _ _; simp at h
  | cons l ls ih =>
    intro k j msg hj hok herr
    cases j with
    | zero =>
      simp only [List.getD_cons_zero] at herr
      simp only [parseBody, herr, Nat.add_zero]
    | succ j =>
      have h0 := hok 0 (by omega)
      simp only [List.getD_cons_zero] at h0
      cases hl : parseLine l with
      | error m2 => rw [hl] at h0; simp [exceptIsOk] at h0
      | ok pair =>
        simp only [parseBody, hl]
        have hrec := ih (k + 1) j msg (by simpa using hj)
          (fun i hi => by simpa using hok (i + 1) (by omega))
          (by simpa using herr)
        rw [hrec]
        have he : k + 1 + j = k + (j + 1) := by omega
        rw [he]

/-- A successful index construction passes the wrapper checks and is exactly
the parse of the body lines. -/
theorem try_from_ok_body (d : Str) (m : ModuleInfo) (h : ModuleInfo.try_from d = .ok m) :
    (S "\x7b\n").isPrefixOf d = true ∧
    ((splitTerminator '\n' d).drop 1).getLast? = some (S "\x7d") ∧
    parseBody ((splitTerminator '\n' d).drop 1).dropLast 2 = .ok m.data := by
  unfold ModuleInfo.try_from at h
  split at h
  case isFalse h1 => cases h
  case isTrue h1 =>
    dsimp only [] at h
    cases hg : ((splitTerminator '\n' d).drop 1).getLast? with
    | none => simp only [hg] at h; exact Except.noConfusion h
    | some last =>
      simp only [hg] at h
      split at h
      next h2 =>
        cases hb : parseBody ((splitTerminator '\n' d).drop 1).dropLast 2 with
        | error e => rw [hb] at h; cases h
        | ok pairs =>
          rw [hb] at h
          injection h with h
          subst h
          exact ⟨h1, by rw [h2], rfl⟩
      next h2 => cases h

/-!
Field tracking for the record decoder: which wire keys have been filled.
-/

/-- Whether the field with wire key `w` has been filled in the accumulator
(`true` for keys outside the schema). -/
def accSeen (w : Str) (st : ModuleAcc) : Bool :=
  if w = S "module_name" then st.name.isSome
  else if w = S "path" then st.path.isSome
  else if w = S "installed" then st.installed.isSome
  else if w = S "dependencies" then st.dependencies.isSome
  else if w = S "class" then st.class_.isSome
  else if w = S "tags" then st.tags.isSome
  else if w = S "test_config" then st.test_config.isSome
  else true

/-- A key outside the schema is ignored: the accumulator is unchanged, as
serde ignores unknown fields. -/
theorem setField_unknown (st : ModuleAcc) (k : Str) (v : Json) (hk : k ∉ wireKeys) :
    setField st k v = .ok st := by
  simp only [wireKeys, List.mem_cons, List.not_mem_nil, or_false, not_or] at hk
  obtain ⟨k1, k2, k3, k4, k5, k6, k7⟩ := hk
  unfold setField
  rw [if_neg k1, if_neg k2, if_neg k3, if_neg k4, if_neg k5, if_neg k6, if_neg k7]

/-- Setting a field under a key other than `w` leaves the `w` field's
filled-state unchanged. -/
theorem setField_seen (st st2 : ModuleAcc) (k : Str) (v : Json) (w : Str)
    (hk : k ≠ w) (h : setField st k v = .ok st2) : accSeen w st2 = accSeen w st := by
  unfold setField at h
  split_ifs at h with h1 h2 h3 h4 h5 h6 h7
  · cases hn : st.name with
    | some _ => rw [hn] at h; cases h
    | none =>
      rw [hn] at h
      cases hg : getStr v with
      | error e => rw [hg] at h; cases h
      | ok x =>
        rw [hg] at h
        injection h with h
        subst h
        have hw : w ≠ S "module_name" := fun he => hk (h1.trans he.symm)
        unfold accSeen
        simp only [if_neg hw]
  · cases hn : st.path with
    | some _ => rw [hn] at h; cases h
    | none =>
      rw [hn] at h
      cases hg : getStrList v with
      | error e => rw [hg] at h; cases h
      | ok x =>
        rw [hg] at h
        injection h with h
        subst h
        have hw : w ≠ S "path" := fun he => hk (h2.trans he.symm)
        unfold accSeen
        simp only [if_neg hw]
  · cases hn : st.installed with
    | some _ => rw [hn] at h; cases h
    | none =>
      rw [hn] at h
      cases hg : getStrList v with
      | error e => rw [hg] at h; cases h
      | ok x =>
        rw [hg] at h
        injection h with h
        subst h
        have hw : w ≠ S "installed" := fun he => hk (h3.trans he.symm)
        unfold accSeen
        simp only [if_neg hw]
  · cases hn : st.dependencies with
    | some _ => rw [hn] at h; cases h
    | none =>
      rw [hn] at h
      cases hg : getStrList v with
      | error e => rw [hg] at h; cases h
      | ok x =>
        rw [hg] at h
        injection h with h
        subst h
        have hw : w ≠ S "dependencies" := fun he => hk (h4.trans he.symm)
        unfold accSeen
        simp only [if_neg hw]
  · cases hn : st.class_ with
    | some _ => rw [hn] at h; cases h
    | none =>
      rw [hn] at h
      cases hg : getStrList v with
      | error e => rw [hg] at h; cases h
      | ok x =>
        rw [hg] at h
        injection h with h
        subst h
        have hw : w ≠ S "class" := fun he => hk (h5.trans he.symm)
        unfold accSeen
        simp only [if_neg hw]
  · cases hn : st.tags with
    | some _ => rw [hn] at h; cases h
    | none =>
      rw [hn] at h
      cases hg : getStrList v with
      | error e => rw [hg] at h; cases h
      | ok x =>
        rw [hg] at h
        injection h with h
        subst h
        have hw : w ≠ S "tags" := fun he => hk (h6.trans he.symm)
        unfold accSeen
        simp only [if_neg hw]
  · cases hn : st.test_config with
    | some _ => rw [hn] at h; cases h
    | none =>
      rw [hn] at h
      cases hg : getStrList v with
      | error e => rw [hg] at h; cases h
      | ok x =>
        rw [hg] at h
        injection h with h
        subst h
        have hw : w ≠ S "test_config" := fun he => hk (h7.trans he.symm)
        unfold accSeen
        simp only [if_neg hw]
  · injection h with h
    subst h
    rfl

/-- Walking members none of which carries key `w` leaves the `w` field's
filled-state unchanged. -/
theorem decodeFields_seen (w : Str) :
    ∀ (kvs : List (Str × Json)) (st st2 : ModuleAcc), decodeFields kvs st = .ok st2 →
      (∀ p ∈ kvs, p.1 ≠ w) → accSeen w st2 = accSeen w st := by
  intro kvs
  induction kvs with
  | nil =>
    intro st st2 h _
    injection h with h
    subst h
    rfl
  | cons pv kvs ih =>
    intro st st2 h hall
    obtain ⟨pk, pval⟩ := pv
    simp only [decodeFields] at h
    cases hsf : setField st pk pval with
    | error e => rw [hsf] at h; cases h
    | ok stm =>
      rw [hsf] at h
      have hk : pk ≠ w := hall (pk, pval) (List.mem_cons_self _ _)
      rw [ih stm st2 h (fun p hp => hall p (List.mem_cons_of_mem _ hp))]
      exact setField_seen st stm pk pval w hk hsf

/-- Removing an unknown-key member anywhere in the walk changes nothing. -/
theorem decodeFields_ignore (k : Str) (v : Json) (hk : k ∉ wireKeys) :
    ∀ (pre post : List (Str × Json)) (st : ModuleAcc),
      decodeFields (pre ++ (k, v) :: post) st = decodeFields (pre ++ post) st := by
  intro pre
  induction pre with
  | nil =>
    intro post st
    simp only [List.nil_append, decodeFields, setField_unknown st k v hk]
  | cons pv pre ih =>
    intro post st
    obtain ⟨pk, pval⟩ := pv
    simp only [List.cons_append, decodeFields]
    cases hsf : setField st pk pval with
    | error e => rfl
    | ok stm => exact ih post stm

theorem accSeen_name (st : ModuleAcc) : accSeen (S "module_name") st = st.name.isSome := by
  unfold accSeen
  rw [if_pos rfl]

theorem accSeen_path (st : ModuleAcc) : accSeen (S "path") st = st.path.isSome := by
  unfold accSeen
  rw [if_neg (by decide), if_pos rfl]

theorem accSeen_installed (st : ModuleAcc) : accSeen (S "installed") st = st.installed.isSome := by
  unfold accSeen
  rw [if_neg (by decide), if_neg (by decide), if_pos rfl]

theorem accSeen_dependencies (st : ModuleAcc) : accSeen (S "dependencies") st = st.dependencies.isSome := by
  unfold accSeen
  rw [if_neg (by decide), if_neg (by decide), if_neg (by decide), if_pos rfl]

theorem accSeen_class_ (st : ModuleAcc) : accSeen (S "class") st = st.class_.isSome := by
  unfold accSeen
  rw [if_neg (by decide), if_neg (by decide), if_neg (by decide), if_neg (by decide), if_pos rfl]

theorem accSeen_tags (st : ModuleAcc) : accSeen (S "tags") st = st.tags.isSome := by
  unfold accSeen
  rw [if_neg (by decide), if_neg (by decide), if_neg (by decide), if_neg (by decide), if_neg (by decide), if_pos rfl]

theorem accSeen_test_config (st : ModuleAcc) : accSeen (S "test_config") st = st.test_config.isSome := by
  unfold accSeen
  rw [if_neg (by decide), if_neg (by decide), if_neg (by decide), if_neg (by decide), if_neg (by decide), if_neg (by decide), if_pos rfl]

/-- Finishing succeeds exactly when every field has been filled. -/
theorem finishModule_ok_iff (st : ModuleAcc) :
    exceptIsOk (finishModule st) = true ↔
      (st.name.isSome = true ∧ st.path.isSome = true ∧ st.installed.isSome = true ∧
       st.dependencies.isSome = true ∧ st.class_.isSome = true ∧ st.tags.isSome = true ∧
       st.test_config.isSome = true) := by
  obtain ⟨n, p, i, d, c, tg, tc⟩ := st
  cases n <;> cases p <;> cases i <;> cases d <;> cases c <;> cases tg <;> cases tc <;>
    simp [finishModule, exceptIsOk]

/-- On the empty accumulator, no schema key is filled. -/
theorem accSeen_init (w : Str) (hw : w ∈ wireKeys) : accSeen w ({} : ModuleAcc) = false := by
  simp only [wireKeys, List.mem_cons, List.not_mem_nil, or_false] at hw
  rcases hw with h | h | h | h | h | h | h <;> subst h <;> decide

/-- An object that never mentions a schema wire key cannot decode. -/
theorem deserializeModule_missing (kvs : List (Str × Json)) (w : Str)
    (hw : w ∈ wireKeys) (habs : ∀ p ∈ kvs, p.1 ≠ w) :
    exceptIsOk (deserializeModule (.obj kvs)) = false := by
  cases hdf : decodeFields kvs {} with
  | error e => simp only [deserializeModule, hdf]; rfl
  | ok st =>
    simp only [deserializeModule, hdf]
    have hseen : accSeen w st = accSeen w {} := decodeFields_seen w kvs {} st hdf habs
    rw [accSeen_init w hw] at hseen
    cases hok : exceptIsOk (finishModule st) with
    | false => rfl
    | true =>
      exfalso
      have hall := (finishModule_ok_iff st).mp hok
      simp only [wireKeys, List.mem_cons, List.not_mem_nil, or_false] at hw
      rcases hw with h | h | h | h | h | h | h
      · subst h; rw [accSeen_name] at hseen; rw [hall.1] at hseen; cases hseen
      · subst h; rw [accSeen_path] at hseen; rw [hall.2.1] at hseen; cases hseen
      · subst h; rw [accSeen_installed] at hseen; rw [hall.2.2.1] at hseen; cases hseen
      · subst h; rw [accSeen_dependencies] at hseen; rw [hall.2.2.2.1] at hseen; cases hseen
      · subst h; rw [accSeen_class_] at hseen; rw [hall.2.2.2.2.1] at hseen; cases hseen
      · subst h; rw [accSeen_tags] at hseen; rw [hall.2.2.2.2.2.1] at hseen; cases hseen
      · subst h; rw [accSeen_test_config] at hseen; rw [hall.2.2.2.2.2.2] at hseen; cases hseen

/-!
Concrete documents used by the claim theorems.
-/

/-- A well-formed two-entry document whose names are out of byte order. -/
def docBA : Str := S "\x7b\n  \"b\": \x7b\x7d,\n  \"a\": \x7b\x7d\n\x7d\n"

/-- The index built from `docBA`. -/
def MBA : ModuleInfo := ⟨[(S "b", S "\x7b\x7d"), (S "a", S "\x7b\x7d")]⟩

/-- A well-formed two-entry document whose names are in byte order. -/
def docAB : Str := S "\x7b\n  \"a\": \x7b\x7d,\n  \"b\": \x7b\x7d\n\x7d\n"

/-- The index built from `docAB`. -/
def MAB : ModuleInfo := ⟨[(S "a", S "\x7b\x7d"), (S "b", S "\x7b\x7d")]⟩

/-!
Claim C1.
-/

/-- C1 as stated is false: `try_from` accepts `docBA`, whose name listing
holds `"b"`, yet `find "b"` answers `none` — binary search over the unsorted
pair list misses a present name. -/
theorem C1_cex :
    ModuleInfo.try_from docBA = .ok MBA ∧
    (S "b") ∈ MBA.module_names ∧
    MBA.find (S "b") = none :=
  ⟨by rfl, by decide, by rfl⟩

/-- C1 amended: for every document from which index construction succeeds
and whose name listing is sorted (non-decreasing byte-lexicographically) —
the precondition the binary search needs — `find name` answers `None` exactly
when `name` is absent from `module_names()`. -/
theorem C1_find_none_iff (d : Str) (m : ModuleInfo)
    (_hok : ModuleInfo.try_from d = .ok m)
    (hsorted : List.Pairwise strLe m.module_names) (name : Str) :
    m.find name = none ↔ name ∉ m.module_names :=
  (find_none_iff_bsearch m name).trans (bsearchIdx_none_iff m name hsorted)

/-- Witness for C1: the amended theorem applied to the sorted two-entry
document and an absent name. -/
theorem C1_witness :
    MAB.find (S "c") = none ↔ (S "c") ∉ MAB.module_names :=
  C1_find_none_iff docAB MAB (by rfl) (by decide) (S "c")

/-!
Claim C4.
-/

/-- C4's sortedness part is false: `try_from` accepts `docBA`, yet the
returned name sequence `["b", "a"]` is not non-decreasing. -/
theorem C4_cex :
    ModuleInfo.try_from docBA = .ok MBA ∧
    MBA.module_names = [S "b", S "a"] ∧
    ¬ List.Pairwise strLe MBA.module_names :=
  ⟨by rfl, by rfl, by decide⟩

/-- C4 amended: for every accepted document, `module_names()` has exactly one
name per body line, in the document's order — the name extracted by the line
parser from that line; construction does not establish (nor check) that this
sequence is sorted. -/
theorem C4_names_in_order (d : Str) (m : ModuleInfo)
    (hok : ModuleInfo.try_from d = .ok m) :
    m.module_names.length = ((splitTerminator '\n' d).drop 1).dropLast.length ∧
    ∀ i, i < ((splitTerminator '\n' d).drop 1).dropLast.length →
      ∃ payload, parseLine (((splitTerminator '\n' d).drop 1).dropLast.getD i []) =
        .ok (m.module_names.getD i [], payload) := by
  obtain ⟨_, _, hbody⟩ := try_from_ok_body d m hok
  obtain ⟨hlen, hget⟩ := parseBody_ok_spec _ 2 _ hbody
  have hnl : m.module_names.length = m.data.length := List.length_map _ _
  constructor
  · rw [hnl, hlen]
  · intro i hi
    refine ⟨(m.data.getD i ([], [])).2, ?_⟩
    rw [hget i hi]
    have hilen : i < m.data.length := by rw [hlen]; exact hi
    have hname : m.module_names.getD i [] = (m.data.getD i ([], [])).1 := by
      rw [List.getD_eq_getElem _ _ (by rw [hnl]; exact hilen),
          List.getD_eq_getElem _ _ hilen]
      simp [ModuleInfo.module_names]
    rw [hname]

/-- Witness for C4: the amended theorem applied to the sorted two-entry
document; its listing has one name per body line. -/
theorem C4_witness :
    MAB.module_names.length = ((splitTerminator '\n' docAB).drop 1).dropLast.length :=
  (C4_names_in_order docAB MAB (by rfl)).1

/-!
Claim C7.
-/

/-- C7's last-line part is false: on the document `"\x7b\nX\n"` (two lines, the
second and last line being `X`), construction fails with the `bad last line`
error tagged at line 1, not at the document's last line 2. -/
theorem C7_cex :
    ModuleInfo.try_from (S "\x7b\nX\n") = .error ⟨1, "bad last line"⟩ ∧
    (splitTerminator '\n' (S "\x7b\nX\n")).length = 2 :=
  ⟨by rfl, by rfl⟩

/-- C7 amended: a bad first line fails at line 1; a final line that is not a
lone closing brace fails with `bad last line` tagged at the count of lines
after the first (one less than the last line's 1-based number); the document
`"\x7b\n"` alone fails with `too few lines` at line 1.  No index value is
produced in any of these cases, `try_from` being a total function into a sum
of an error and an index. -/
theorem C7_wrapper_errors :
    (∀ d : Str, ¬ (S "\x7b\n").isPrefixOf d = true →
      ModuleInfo.try_from d = .error ⟨1, "bad first line"⟩) ∧
    (∀ d : Str, (S "\x7b\n").isPrefixOf d = true →
      ∀ last, ((splitTerminator '\n' d).drop 1).getLast? = some last → last ≠ S "\x7d" →
        ModuleInfo.try_from d =
          .error ⟨((splitTerminator '\n' d).drop 1).length, "bad last line"⟩) ∧
    ModuleInfo.try_from (S "\x7b\n") = .error ⟨1, "too few lines"⟩ := by
  refine ⟨?_, ?_, by rfl⟩
  · intro d hd
    unfold ModuleInfo.try_from
    rw [if_neg hd]
  · intro d hd last hlast hne
    unfold ModuleInfo.try_from
    rw [if_pos hd]
    dsimp only []
    simp only [hlast]
    rw [if_neg hne]

/-- Witness for C7: the amended theorem applied to a document missing the
opening wrapper and to one whose final line is not a closing brace. -/
theorem C7_witness :
    ModuleInfo.try_from (S "junk") = .error ⟨1, "bad first line"⟩ ∧
    ModuleInfo.try_from (S "\x7b\nX\n") = .error ⟨1, "bad last line"⟩ :=
  ⟨C7_wrapper_errors.1 (S "junk") (by decide),
   C7_wrapper_errors.2.1 (S "\x7b\nX\n") (by decide) (S "X") (by rfl) (by decide)⟩

/-!
Anatomy of `parseLine`, for claims C6 and C10.
-/

/-- A successful `findIdx?` splits the list at the first hit. -/
theorem findIdx?_decomp {p : Char → Bool} :
    ∀ (l : Str) (n : Nat), l.findIdx? p = some n →
      ∃ c rest, l = l.take n ++ c :: rest ∧ p c = true ∧ ∀ x ∈ l.take n, p x = false := by
  intro l
  induction l with
  | nil => intro n h; simp [List.findIdx?] at h
  | cons a l ih =>
    intro n h
    rw [List.findIdx?_cons] at h
    by_cases hpa : p a
    · rw [if_pos hpa] at h
      injection h with h
      subst h
      exact ⟨a, l, by simp, hpa, by simp⟩
    · rw [if_neg hpa] at h
      rw [List.findIdx?_succ] at h
      cases hf : l.findIdx? p with
      | none => rw [hf] at h; cases h
      | some m =>
        rw [hf] at h
        rw [show ((some m).map fun n => n + 1) = some (m + 1) from rfl] at h
        injection h with h
        subst h
        obtain ⟨c, rest, hdec, hc, hall⟩ := ih m hf
        refine ⟨c, rest, ?_, hc, ?_⟩
        · rw [List.take_succ_cons]
          rw [List.cons_append]
          rw [← hdec]
        · intro x hx
          rw [List.take_succ_cons] at hx
          rcases List.mem_cons.mp hx with hxa | hxl
          · subst hxa
            exact Bool.eq_false_iff.mpr hpa
          · exact hall x hxl

/-- Core of the name characterization: the name taken at the first quote index
is followed by that quote, and holds no quote itself. -/
theorem parseLine_name_core (l nm : Str) (nameEnd : Nat)
    (hp : (S "  \"").isPrefixOf l = true)
    (hf : (l.drop 3).findIdx? (fun c => c = '"') = some nameEnd)
    (hnm : nm = (l.drop 3).take nameEnd) :
    (S "  \"").isPrefixOf l = true ∧
    (∃ rest, l.drop 3 = nm ++ '"' :: rest) ∧
    ∀ c ∈ nm, c ≠ '"' := by
  obtain ⟨c, rest, hdec, hc, hall⟩ := findIdx?_decomp (l.drop 3) nameEnd hf
  have hcq : c = '"' := by simpa using hc
  subst hcq
  refine ⟨hp, ⟨rest, by rw [hdec, hnm]⟩, ?_⟩
  intro x hx
  have := hall x (by rw [← hnm]; exact hx)
  simpa using this

/-- A successfully parsed line starts with the two-space-quote prefix, and its
name is the text strictly between that prefix and the first following double
quote: no escape processing, and no quote can occur inside the name. -/
theorem parseLine_ok_name (l nm payload : Str) (h : parseLine l = .ok (nm, payload)) :
    (S "  \"").isPrefixOf l = true ∧
    (∃ rest, l.drop 3 = nm ++ '"' :: rest) ∧
    ∀ c ∈ nm, c ≠ '"' := by
  unfold parseLine at h
  by_cases hp : (S "  \"").isPrefixOf l = true
  case neg => rw [if_neg hp] at h; exact Except.noConfusion h
  case pos =>
    rw [if_pos hp] at h
    dsimp only [] at h
    cases hf : (l.drop 3).findIdx? (fun c => c = '"') with
    | none => simp only [hf] at h; exact Except.noConfusion h
    | some nameEnd =>
      simp only [hf] at h
      split at h
      next hterm =>
        split at h
        next hcomma =>
          split at h
          next hjson =>
            exact parseLine_name_core l nm nameEnd hp hf
              (congrArg Prod.fst (Except.ok.inj h)).symm
          next => exact Except.noConfusion h
        next hcomma =>
          split at h
          next hjson =>
            exact parseLine_name_core l nm nameEnd hp hf
              (congrArg Prod.fst (Except.ok.inj h)).symm
          next => exact Except.noConfusion h
      next => exact Except.noConfusion h

/-!
Claim C10.
-/

/-- C10: every name stored by an accepted construction is the raw slice
between the line's `  "` prefix and the first following quote — in
particular, no stored name contains a double-quote character, so a line whose
intended name holds an escaped quote is never parsed as that name. -/
theorem C10_names_raw (d : Str) (m : ModuleInfo)
    (hok : ModuleInfo.try_from d = .ok m) :
    (∀ p ∈ m.data, ∀ c ∈ p.1, c ≠ '"') ∧
    (∀ l nm payload, parseLine l = .ok (nm, payload) →
      (S "  \"").isPrefixOf l = true ∧
      (∃ rest, l.drop 3 = nm ++ '"' :: rest) ∧
      ∀ c ∈ nm, c ≠ '"') := by
  refine ⟨?_, fun l nm payload h => parseLine_ok_name l nm payload h⟩
  obtain ⟨_, _, hbody⟩ := try_from_ok_body d m hok
  obtain ⟨hlen, hget⟩ := parseBody_ok_spec _ 2 _ hbody
  intro p hp
  rw [List.mem_iff_getElem] at hp
  obtain ⟨i, hilen, hig⟩ := hp
  have hi : i < ((splitTerminator '\n' d).drop 1).dropLast.length := by
    rw [← hlen]; exact hilen
  have hpl := hget i hi
  have hpd : m.data.getD i ([], []) = p := by
    rw [List.getD_eq_getElem _ _ hilen, hig]
  rw [hpd] at hpl
  exact (parseLine_ok_name _ _ _ (by rw [hpl])).2.2

/-- Witness for C10: on the concrete unsorted document, the character of the
stored name `"b"` of the first entry is not a quote. -/
theorem C10_witness : 'b' ≠ '"' :=
  (C10_names_raw docBA MBA (by rfl)).1 (S "b", S "\x7b\x7d") (by decide) 'b' (by decide)

/-!
Claim C6: the violation behind each line-parse message.
-/

/-- Violation of `no <name> element`: the line does not start with two spaces
and a double quote. -/
def condNoName (l : Str) : Prop := ¬ (S "  \"").isPrefixOf l = true

/-- Violation of `<name> element not terminated`: the prefix is there but no
closing quote follows. -/
def condNameUnterminated (l : Str) : Prop :=
  (S "  \"").isPrefixOf l = true ∧ (l.drop 3).findIdx? (fun c => c = '"') = none

/-- Violation of `bad <name> terminator`: a closing quote is found but the
text from it does not continue with quote, colon, space, open brace. -/
def condBadNameTerm (l : Str) : Prop :=
  ∃ nameEnd, (S "  \"").isPrefixOf l = true ∧
    (l.drop 3).findIdx? (fun c => c = '"') = some nameEnd ∧
    ¬ (S "\": \x7b").isPrefixOf ((l.drop 3).drop nameEnd) = true

/-- Violation of `<json> element not terminated`: after stripping one
optional trailing comma, the line does not end with a closing brace. -/
def condJsonUnterminated (l : Str) : Prop :=
  ∃ nameEnd, (S "  \"").isPrefixOf l = true ∧
    (l.drop 3).findIdx? (fun c => c = '"') = some nameEnd ∧
    (S "\": \x7b").isPrefixOf ((l.drop 3).drop nameEnd) = true ∧
    ¬ ((if (((l.drop 3).drop nameEnd).drop 3).getLast? = some ','
        then (((l.drop 3).drop nameEnd).drop 3).dropLast
        else ((l.drop 3).drop nameEnd).drop 3).getLast? = some '\x7d')

/-- Each failing line's message characterizes its violation exactly. -/
theorem parseLine_error_cases (l : Str) (msg : String) (h : parseLine l = .error msg) :
    (msg = "no <name> element" ↔ condNoName l) ∧
    (msg = "<name> element not terminated" ↔ condNameUnterminated l) ∧
    (msg = "bad <name> terminator" ↔ condBadNameTerm l) ∧
    (msg = "<json> element not terminated" ↔ condJsonUnterminated l) := by
  unfold parseLine at h
  by_cases hp : (S "  \"").isPrefixOf l = true
  case neg =>
    rw [if_neg hp] at h
    have hmsg : msg = "no <name> element" := (Except.error.inj h).symm
    subst hmsg
    refine ⟨iff_of_true rfl hp, ?_, ?_, ?_⟩
    · exact iff_of_false (by decide) (fun hc => hp hc.1)
    · exact iff_of_false (by decide) (fun ⟨ne, hpp, _, _⟩ => hp hpp)
    · exact iff_of_false (by decide) (fun ⟨ne, hpp, _, _, _⟩ => hp hpp)
  case pos =>
    rw [if_pos hp] at h
    dsimp only [] at h
    cases hf : (l.drop 3).findIdx? (fun c => c = '"') with
    | none =>
      simp only [hf] at h
      have hmsg : msg = "<name> element not terminated" := (Except.error.inj h).symm
      subst hmsg
      refine ⟨iff_of_false (by decide) (fun hc => hc hp), iff_of_true rfl ⟨hp, hf⟩, ?_, ?_⟩
      · exact iff_of_false (by decide)
          (fun ⟨ne, _, hfi, _⟩ => by rw [hf] at hfi; cases hfi)
      · exact iff_of_false (by decide)
          (fun ⟨ne, _, hfi, _, _⟩ => by rw [hf] at hfi; cases hfi)
    | some nameEnd =>
      simp only [hf] at h
      split at h
      next hterm =>
        split at h
        next hcomma =>
          split at h
          next hjson => exact Except.noConfusion h
          next hjson =>
            have hmsg : msg = "<json> element not terminated" := (Except.error.inj h).symm
            subst hmsg
            refine ⟨?_, ?_, ?_, ?_⟩
            · exact iff_of_false (by decide) (fun hc => hc hp)
            · exact iff_of_false (by decide)
                (fun hc => by have h2 := hc.2; rw [hf] at h2; cases h2)
            · refine iff_of_false (by decide) ?_
              rintro ⟨ne, _, hfi, hnterm⟩
              rw [hf] at hfi
              injection hfi with hfi
              subst hfi
              exact hnterm hterm
            · refine iff_of_true rfl ⟨nameEnd, hp, hf, hterm, ?_⟩
              rw [if_pos hcomma]
              exact hjson
        next hcomma =>
          split at h
          next hjson => exact Except.noConfusion h
          next hjson =>
            have hmsg : msg = "<json> element not terminated" := (Except.error.inj h).symm
            subst hmsg
            refine ⟨?_, ?_, ?_, ?_⟩
            · exact iff_of_false (by decide) (fun hc => hc hp)
            · exact iff_of_false (by decide)
                (fun hc => by have h2 := hc.2; rw [hf] at h2; cases h2)
            · refine iff_of_false (by decide) ?_
              rintro ⟨ne, _, hfi, hnterm⟩
              rw [hf] at hfi
              injection hfi with hfi
              subst hfi
              exact hnterm hterm
            · refine iff_of_true rfl ⟨nameEnd, hp, hf, hterm, ?_⟩
              rw [if_neg hcomma]
              exact hjson
      next hterm =>
        have hmsg : msg = "bad <name> terminator" := (Except.error.inj h).symm
        subst hmsg
        refine ⟨?_, ?_, ?_, ?_⟩
        · exact iff_of_false (by decide) (fun hc => hc hp)
        · exact iff_of_false (by decide)
            (fun hc => by have h2 := hc.2; rw [hf] at h2; cases h2)
        · exact iff_of_true rfl ⟨nameEnd, hp, hf, hterm⟩
        · refine iff_of_false (by decide) ?_
          rintro ⟨ne, _, hfi, hterm2, _⟩
          rw [hf] at hfi
          injection hfi with hfi
          subst hfi
          exact hterm hterm2

/-- When the wrapper checks pass, a failing body parse is the whole
construction's failure. -/
theorem try_from_body_error (d : Str) (e : ParseError)
    (h1 : (S "\x7b\n").isPrefixOf d = true)
    (h2 : ((splitTerminator '\n' d).drop 1).getLast? = some (S "\x7d"))
    (hb : parseBody ((splitTerminator '\n' d).drop 1).dropLast 2 = .error e) :
    ModuleInfo.try_from d = .error e := by
  unfold ModuleInfo.try_from
  rw [if_pos h1]
  dsimp only []
  simp only [h2]
  rw [if_pos trivial]
  simp only [hb]

/-- C6: when the wrapper checks pass, the first `j` body lines parse and body
line `j` (0-based) fails with message `msg`, construction fails with a
`ParseError` at the offending line's 1-based document line number `j + 2`
carrying exactly `msg`; and each documented message holds exactly for its
violation of the line shape. -/
theorem C6_line_errors (d : Str) (j : Nat) (msg : String)
    (hpre : (S "\x7b\n").isPrefixOf d = true)
    (hlast : ((splitTerminator '\n' d).drop 1).getLast? = some (S "\x7d"))
    (hj : j < ((splitTerminator '\n' d).drop 1).dropLast.length)
    (hbefore : ∀ i, i < j →
      exceptIsOk (parseLine (((splitTerminator '\n' d).drop 1).dropLast.getD i [])) = true)
    (herr : parseLine (((splitTerminator '\n' d).drop 1).dropLast.getD j []) = .error msg) :
    ModuleInfo.try_from d = .error ⟨j + 2, msg⟩ ∧
    (msg = "no <name> element" ↔
      condNoName (((splitTerminator '\n' d).drop 1).dropLast.getD j [])) ∧
    (msg = "<name> element not terminated" ↔
      condNameUnterminated (((splitTerminator '\n' d).drop 1).dropLast.getD j [])) ∧
    (msg = "bad <name> terminator" ↔
      condBadNameTerm (((splitTerminator '\n' d).drop 1).dropLast.getD j [])) ∧
    (msg = "<json> element not terminated" ↔
      condJsonUnterminated (((splitTerminator '\n' d).drop 1).dropLast.getD j [])) := by
  have hbod := parseBody_error_spec _ 2 j msg hj hbefore herr
  have hfail := try_from_body_error d ⟨2 + j, msg⟩ hpre hlast hbod
  have hcases := parseLine_error_cases _ msg herr
  refine ⟨?_, hcases.1, hcases.2.1, hcases.2.2.1, hcases.2.2.2⟩
  rw [hfail]
  have he : 2 + j = j + 2 := by omega
  rw [he]

/-- Witness for C6: a document whose second body line is `bad` fails at
document line 3 with `no <name> element`. -/
theorem C6_witness :
    ModuleInfo.try_from (S "\x7b\n  \"a\": \x7b\x7d,\nbad\n\x7d\n") =
      .error ⟨3, "no <name> element"⟩ :=
  (C6_line_errors (S "\x7b\n  \"a\": \x7b\x7d,\nbad\n\x7d\n") 1 "no <name> element"
    (by decide) (by rfl) (by decide)
    (by intro i hi; obtain rfl := Nat.lt_one_iff.mp hi; rfl)
    (by rfl)).1

/-!
Claims C2, C3 and C5: concrete documents exercising the record decoder.
-/

/-- The spec's concrete-scenario document. -/
def docFoo : Str :=
  S "\x7b\n  \"foo\": \x7b \"module_name\": \"foo\", \"path\": [\"p\"], \"installed\": [], \"class\": [\"c\"] \x7d\n\x7d\n"

/-- The index built from `docFoo`. -/
def MFoo : ModuleInfo :=
  ⟨[(S "foo",
     S "\x7b \"module_name\": \"foo\", \"path\": [\"p\"], \"installed\": [], \"class\": [\"c\"] \x7d")]⟩

/-- C2 as stated is false: on the scenario document, `find "foo"` does not
decode to a record — every schema field is required, and the payload lacks
`dependencies`, `tags` and `test_config`, so the result is `Some(Err(..))`. -/
theorem C2_cex :
    ModuleInfo.try_from docFoo = .ok MFoo ∧
    (MFoo.find (S "foo")).map exceptIsOk = some false :=
  ⟨by rfl, by rfl⟩

/-- C2 amended: on the scenario document, construction succeeds,
`module_names()` is exactly `["foo"]`, `find "bar"` is `None`, and
`find "foo"` is `Some(Err(e))` with `e` tagged at document line 2 and naming
the first missing required field, `dependencies`. -/
theorem C2_scenario :
    ModuleInfo.try_from docFoo = .ok MFoo ∧
    MFoo.module_names = [S "foo"] ∧
    MFoo.find (S "bar") = none ∧
    MFoo.find (S "foo") = some (.error ⟨2, "bad JSON: missing field dependencies"⟩) :=
  ⟨by rfl, by rfl, by rfl, by rfl⟩

/-- A well-formed document whose single payload has every schema field except
`installed`. -/
def docNoInst : Str :=
  S "\x7b\n  \"a\": \x7b \"module_name\": \"a\", \"path\": [], \"dependencies\": [], \"class\": [], \"tags\": [], \"test_config\": [] \x7d\n\x7d\n"

/-- The index built from `docNoInst`. -/
def MNoInst : ModuleInfo :=
  ⟨[(S "a",
     S "\x7b \"module_name\": \"a\", \"path\": [], \"dependencies\": [], \"class\": [], \"tags\": [], \"test_config\": [] \x7d")]⟩

/-- C3's optional-field part is false: a payload carrying every field except
`installed` does not decode to a record with an empty `installed` list — it
fails to decode, because `installed` is required by the derive. -/
theorem C3_cex :
    ModuleInfo.try_from docNoInst = .ok MNoInst ∧
    (MNoInst.find (S "a")).map exceptIsOk = some false :=
  ⟨by rfl, by rfl⟩

/-- C3 amended: unknown fields are ignored by the record decoder — removing
an unknown-key member anywhere in an object leaves the decode result
unchanged — and every one of the seven schema fields (`installed` included)
is required: an object that never mentions one of the wire keys cannot
decode successfully. -/
theorem C3_decoder_fields :
    (∀ (pre post : List (Str × Json)) (k : Str) (v : Json), k ∉ wireKeys →
      deserializeModule (.obj (pre ++ (k, v) :: post)) =
        deserializeModule (.obj (pre ++ post))) ∧
    (∀ (kvs : List (Str × Json)) (w : Str), w ∈ wireKeys →
      (∀ p ∈ kvs, p.1 ≠ w) →
      exceptIsOk (deserializeModule (.obj kvs)) = false) := by
  constructor
  · intro pre post k v hk
    simp only [deserializeModule]
    rw [decodeFields_ignore k v hk pre post {}]
  · intro kvs w hw habs
    exact deserializeModule_missing kvs w hw habs

/-- Witness for C3: the empty object mentions no wire key, so it fails to
decode (here for the missing `installed`). -/
theorem C3_witness : exceptIsOk (deserializeModule (.obj [])) = false :=
  C3_decoder_fields.2 [] (S "installed") (by decide)
    (fun p hp => absurd hp (List.not_mem_nil p))

/-- A document whose entry is indexed under `a` but whose payload declares
`module_name` `b`, with every required field present. -/
def docAB2 : Str :=
  S "\x7b\n  \"a\": \x7b \"module_name\": \"b\", \"path\": [], \"installed\": [], \"dependencies\": [], \"class\": [], \"tags\": [], \"test_config\": [] \x7d\n\x7d\n"

/-- The index built from `docAB2`. -/
def MAB2 : ModuleInfo :=
  ⟨[(S "a",
     S "\x7b \"module_name\": \"b\", \"path\": [], \"installed\": [], \"dependencies\": [], \"class\": [], \"tags\": [], \"test_config\": [] \x7d")]⟩

/-- The record decoded from `docAB2`'s payload. -/
def RB : Module := ⟨S "b", [], [], [], [], [], []⟩

/-- C5 as stated is false: the entry indexed under `a` decodes successfully,
but the record's `name` is the payload's `module_name` `"b"`, not the index
name used to retrieve it. -/
theorem C5_cex :
    ModuleInfo.try_from docAB2 = .ok MAB2 ∧
    MAB2.find (S "a") = some (.ok RB) ∧
    RB.name ≠ S "a" :=
  ⟨by rfl, by rfl, by decide⟩

/-- C5 amended: on a sorted index with no duplicate names, an entry whose
payload decodes successfully and whose decoded `module_name` equals the
entry's index name round-trips: `find` on that index name returns exactly
that record, whose `name` is the queried name.  Nothing forces the payload's
`module_name` to equal the index name — without that hypothesis, the
counterexample applies. -/
theorem C5_round_trip (d : Str) (m : ModuleInfo)
    (_hok : ModuleInfo.try_from d = .ok m)
    (hsorted : List.Pairwise strLe m.module_names)
    (hnodup : m.module_names.Nodup)
    (nm payload : Str) (r : Module)
    (hmem : (nm, payload) ∈ m.data)
    (hdec : from_str payload = .ok r)
    (_hname : r.name = nm) :
    m.find nm = some (.ok r) := by
  have hmemn : nm ∈ m.module_names := by
    rw [ModuleInfo.module_names, List.mem_map]
    exact ⟨(nm, payload), hmem, rfl⟩
  cases hbs : bsearchIdx m.data nm with
  | none => exact absurd ((bsearchIdx_none_iff m nm hsorted).mp hbs) (not_not.mpr hmemn)
  | some i =>
    obtain ⟨_, hir, heq⟩ :=
      bsearchGo_some m.data nm (m.data.length + 1) 0 m.data.length i hbs
    have hfst : (m.data.getD i ([], [])).1 = nm := strCmp_eq_iff.mp heq
    rw [List.mem_iff_getElem] at hmem
    obtain ⟨j, hjlen, hjg⟩ := hmem
    have hlen : m.module_names.length = m.data.length := List.length_map _ _
    have hni : m.module_names.get ⟨i, by omega⟩ = nm := by
      rw [List.get_eq_getElem]
      simp only [ModuleInfo.module_names, List.getElem_map]
      rw [← List.getD_eq_getElem m.data ([], []) hir]
      exact hfst
    have hnj : m.module_names.get ⟨j, by omega⟩ = nm := by
      rw [List.get_eq_getElem]
      simp only [ModuleInfo.module_names, List.getElem_map]
      rw [hjg]
    have hij : i = j :=
      Fin.mk.inj_iff.mp ((List.Nodup.get_inj_iff hnodup).mp (by rw [hni, hnj]))
    have hdata : m.data.getD i ([], []) = (nm, payload) := by
      rw [List.getD_eq_getElem _ _ hir]
      subst hij
      exact hjg
    simp only [ModuleInfo.find, hbs, hdata, hdec]

/-- A document like the scenario's but with every required field present. -/
def docFull : Str :=
  S "\x7b\n  \"foo\": \x7b \"module_name\": \"foo\", \"path\": [\"p\"], \"installed\": [], \"dependencies\": [], \"class\": [\"c\"], \"tags\": [], \"test_config\": [] \x7d\n\x7d\n"

/-- The index built from `docFull`. -/
def MFull : ModuleInfo :=
  ⟨[(S "foo",
     S "\x7b \"module_name\": \"foo\", \"path\": [\"p\"], \"installed\": [], \"dependencies\": [], \"class\": [\"c\"], \"tags\": [], \"test_config\": [] \x7d")]⟩

/-- The record decoded from `docFull`'s payload. -/
def RFoo : Module := ⟨S "foo", [S "p"], [], [], [S "c"], [], []⟩

/-- Witness for C5: the round trip on the full-field document. -/
theorem C5_witness : MFull.find (S "foo") = some (.ok RFoo) :=
  C5_round_trip docFull MFull (by rfl) (by decide) (by decide)
    (S "foo")
    (S "\x7b \"module_name\": \"foo\", \"path\": [\"p\"], \"installed\": [], \"dependencies\": [], \"class\": [\"c\"], \"tags\": [], \"test_config\": [] \x7d")
    RFoo (by decide) (by rfl) (by rfl)

/-!
Claims C8 and C9: anatomy of the source locator.
-/

/-- A successful `findCloseBrace` splits its input at the first
newline-brace pair. -/
theorem findCloseBrace_spec :
    ∀ (t : Str) (k : Nat), findCloseBrace t = some k →
      ∃ mid rest, t = mid ++ '\n' :: '\x7d' :: rest ∧ k = mid.length + 1 ∧
        ∀ mid2 mid3 : Str, mid ≠ mid2 ++ '\n' :: '\x7d' :: mid3 := by
  intro t
  induction t with
  | nil => intro k h; cases h
  | cons a t ih =>
    intro k h
    cases t with
    | nil => cases h
    | cons b rest =>
      unfold findCloseBrace at h
      by_cases hab : a = '\n' ∧ b = '\x7d'
      · rw [if_pos hab] at h
        injection h with h
        subst h
        refine ⟨[], rest, by rw [hab.1, hab.2]; rfl, rfl, ?_⟩
        intro mid2 mid3 hc
        cases mid2 <;> cases hc
      · rw [if_neg hab] at h
        cases hf : findCloseBrace (b :: rest) with
        | none => rw [hf] at h; cases h
        | some k2 =>
          rw [hf] at h
          injection h with h
          subst h
          obtain ⟨mid, rest2, hdec, hkv, hmin⟩ := ih k2 hf
          refine ⟨a :: mid, rest2, by rw [List.cons_append, ← hdec], by simp [hkv], ?_⟩
          intro mid2 mid3 hc
          cases mid2 with
          | nil =>
            simp only [List.nil_append] at hc
            injection hc with hc1 hc2
            apply hab
            refine ⟨hc1, ?_⟩
            rw [hc2] at hdec
            simp only [List.cons_append] at hdec
            exact List.head_eq_of_cons_eq hdec
          | cons c2 mid2 =>
            simp only [List.cons_append] at hc
            injection hc with _ hc2
            exact hmin mid2 mid3 hc2

/-- The shape of a block slice returned by the scanner: optional horizontal
whitespace, a nonempty identifier, optional whitespace, an opening brace,
then the body up to and including the first line-initial closing brace. -/
def blockShape (b : Str) : Prop :=
  ∃ w1 idt w2 mid,
    b = w1 ++ idt ++ w2 ++ '\x7b' :: (mid ++ ['\n', '\x7d']) ∧
    w1.all horizWs = true ∧ idt ≠ [] ∧ idt.all wordChar = true ∧
    w2.all regexWs = true ∧
    ∀ mid2 mid3 : Str, mid ≠ mid2 ++ '\n' :: '\x7d' :: mid3

/-- A match found at a position decomposes the suffix there into the block
shape plus the unconsumed remainder. -/
theorem matchAt_spec (s : Str) (len : Nat) (h : matchAt s = some len) :
    blockShape (s.take len) := by
  unfold matchAt at h
  dsimp only [] at h
  by_cases hw : (s.dropWhile horizWs).length =
      ((s.dropWhile horizWs).dropWhile wordChar).length
  · rw [if_pos hw] at h; cases h
  · rw [if_neg hw] at h
    cases ht3 : ((s.dropWhile horizWs).dropWhile wordChar).dropWhile regexWs with
    | nil => simp only [ht3] at h; exact Option.noConfusion h
    | cons c t4 =>
      simp only [ht3] at h
      by_cases hc : c = '\x7b'
      · rw [if_pos hc] at h
        cases hk : findCloseBrace t4 with
        | none => rw [hk] at h; cases h
        | some k =>
          rw [hk] at h
          injection h with h
          obtain ⟨mid, rest, hdec4, hkv, hmin⟩ := findCloseBrace_spec t4 k hk
          have hs1 : s = s.takeWhile horizWs ++ s.dropWhile horizWs :=
            (List.takeWhile_append_dropWhile _ _).symm
          have hs2 : s.dropWhile horizWs =
              (s.dropWhile horizWs).takeWhile wordChar ++
                (s.dropWhile horizWs).dropWhile wordChar :=
            (List.takeWhile_append_dropWhile _ _).symm
          have hs3 : (s.dropWhile horizWs).dropWhile wordChar =
              ((s.dropWhile horizWs).dropWhile wordChar).takeWhile regexWs ++
                ((s.dropWhile horizWs).dropWhile wordChar).dropWhile regexWs :=
            (List.takeWhile_append_dropWhile _ _).symm
          refine ⟨s.takeWhile horizWs, (s.dropWhile horizWs).takeWhile wordChar,
                  ((s.dropWhile horizWs).dropWhile wordChar).takeWhile regexWs,
                  mid, ?_, List.all_takeWhile, ?_, List.all_takeWhile,
                  List.all_takeWhile, hmin⟩
          · -- the take-equation
            have hsdec : s =
                (s.takeWhile horizWs ++ (s.dropWhile horizWs).takeWhile wordChar ++
                 ((s.dropWhile horizWs).dropWhile wordChar).takeWhile regexWs ++
                 '\x7b' :: (mid ++ ['\n', '\x7d'])) ++ rest := by
              conv_lhs => rw [hs1]
              conv_lhs => rw [hs2]
              conv_lhs => rw [hs3]
              rw [ht3, hc, hdec4]
              simp [List.append_assoc]
            conv_lhs => rw [hsdec]
            refine List.take_left' ?_
            have hbig := congrArg List.length hsdec
            simp only [List.length_append, List.length_cons] at hbig
            have hlen4 : t4.length = mid.length + 2 + rest.length := by
              rw [hdec4]
              simp only [List.length_append, List.length_cons]
              omega
            simp only [List.length_append, List.length_cons]
            omega
          · -- the identifier is nonempty
            intro hnil
            apply hw
            conv_lhs => rw [hs2, hnil]
            simp
      · rw [if_neg hc] at h
        exact Option.noConfusion h

/-- Every element of the scan is the match slice at some position of the
haystack. -/
theorem blockMatches_mem :
    ∀ (fuel : Nat) (s0 b : Str), b ∈ blockMatches fuel s0 →
      ∃ i len, matchAt (s0.drop i) = some len ∧ b = (s0.drop i).take len := by
  intro fuel
  induction fuel with
  | zero => intro s0 b h; cases h
  | succ fuel ih =>
    intro s0 b h
    cases s0 with
    | nil => cases h
    | cons c rest =>
      cases hm : matchAt (c :: rest) with
      | some len =>
        simp only [blockMatches, hm] at h
        rcases List.mem_cons.mp h with hb | hb
        · exact ⟨0, len, by simpa using hm, by simpa using hb⟩
        · obtain ⟨i, len2, hma, hbe⟩ := ih ((c :: rest).drop len) b hb
          refine ⟨len + i, len2, ?_, ?_⟩
          · rw [← List.drop_drop]
            exact hma
          · rw [← List.drop_drop]
            exact hbe
      | none =>
        simp only [blockMatches, hm] at h
        obtain ⟨i, len2, hma, hbe⟩ := ih rest b h
        refine ⟨i + 1, len2, ?_, ?_⟩
        · rw [List.drop_succ_cons]
          exact hma
        · rw [List.drop_succ_cons]
          exact hbe

/-- `firstMatching` answers `none` exactly when no block matches the name. -/
theorem firstMatching_none_iff (bs : List Str) (nm : Str) :
    firstMatching bs nm = none ↔ ∀ b ∈ bs, nameLineMatch b nm = false := by
  induction bs with
  | nil => simp [firstMatching]
  | cons b bs ih =>
    by_cases hb : nameLineMatch b nm = true
    · simp only [firstMatching, if_pos hb]
      constructor
      · intro h; cases h
      · intro h
        rw [h b (List.mem_cons_self _ _)] at hb
        cases hb
    · have hbf : nameLineMatch b nm = false := Bool.eq_false_iff.mpr hb
      simp only [firstMatching, if_neg hb, ih]
      constructor
      · intro h x hx
        rcases List.mem_cons.mp hx with hxb | hxs
        · rw [hxb]; exact hbf
        · exact h x hxs
      · intro h x hx
        exact h x (List.mem_cons_of_mem _ hx)

/-- A `firstMatching` hit is the first scanned block matching the name. -/
theorem firstMatching_some_spec :
    ∀ (bs : List Str) (nm s : Str), firstMatching bs nm = some s →
      nameLineMatch s nm = true ∧
      ∃ k, k < bs.length ∧ bs.getD k [] = s ∧
        ∀ k2, k2 < k → nameLineMatch (bs.getD k2 []) nm = false := by
  intro bs
  induction bs with
  | nil => intro nm s h; cases h
  | cons b bs ih =>
    intro nm s h
    by_cases hb : nameLineMatch b nm = true
    · rw [firstMatching, if_pos hb] at h
      injection h with h
      subst h
      exact ⟨hb, 0, by simp, rfl, fun k2 hk2 => by omega⟩
    · rw [firstMatching, if_neg hb] at h
      obtain ⟨hs, k, hk, hgd, hbefore⟩ := ih nm s h
      refine ⟨hs, k + 1, by simpa using hk, by simpa using hgd, ?_⟩
      intro k2 hk2
      cases k2 with
      | zero => simpa using Bool.eq_false_iff.mpr hb
      | succ k2 => simpa using hbefore k2 (by omega)

/-- C8 amended, for names of regex-literal characters (see C9 for other
names): a `None` answer means no scanned candidate block contains the
`name: "<module_name>"` line; a `Some` answer is the text of a candidate
block — the match-slice at some position of the haystack, of the block shape
(optional horizontal whitespace and an identifier before the opening brace,
ending at the first line-initial closing brace) — that contains the name
line, and it is the first such block of the left-to-right, non-overlapping
scan.  As stated the claim is false: the slice does not start at the
identifier when horizontal whitespace precedes it (see the counterexample),
and a name holding regex metacharacters is an `Err`, not a match. -/
theorem C8_locator (haystack name : Str)
    (hname : name.all regexLiteralChar = true) :
    (find_module_source haystack name = .ok none →
      ∀ b ∈ blockMatches (haystack.length + 1) haystack,
        nameLineMatch b name = false) ∧
    (∀ s, find_module_source haystack name = .ok (some s) →
      nameLineMatch s name = true ∧
      (∃ i len, matchAt (haystack.drop i) = some len ∧
        s = (haystack.drop i).take len) ∧
      blockShape s ∧
      (∃ k, k < (blockMatches (haystack.length + 1) haystack).length ∧
        (blockMatches (haystack.length + 1) haystack).getD k [] = s ∧
        ∀ k2, k2 < k →
          nameLineMatch ((blockMatches (haystack.length + 1) haystack).getD k2 [])
            name = false)) := by
  constructor
  · intro h
    rw [find_module_source, if_pos hname] at h
    injection h with h
    exact (firstMatching_none_iff _ _).mp h
  · intro s h
    rw [find_module_source, if_pos hname] at h
    injection h with h
    obtain ⟨hmatch, k, hk, hgd, hbefore⟩ := firstMatching_some_spec _ _ _ h
    have hmem : s ∈ blockMatches (haystack.length + 1) haystack := by
      rw [← hgd, List.getD_eq_getElem _ _ hk]
      exact List.getElem_mem hk
    obtain ⟨i, len, hma, hbe⟩ := blockMatches_mem _ _ _ hmem
    refine ⟨hmatch, ⟨i, len, hma, hbe⟩, ?_, ⟨k, hk, hgd, hbefore⟩⟩
    rw [hbe]
    exact matchAt_spec _ _ hma

/-- The counterexample haystack: one space, an identifier, a brace-block
holding the name line. -/
def bpWs : Str := S " a \x7b\n  name: \"x\"\n\x7d"

/-- C8 as stated is false: the returned slice starts with the horizontal
whitespace preceding the identifier, not at the identifier. -/
theorem C8_cex :
    find_module_source bpWs (S "x") = .ok (some bpWs) ∧
    bpWs.getD 0 'q' = ' ' ∧
    bpWs ≠ S "a \x7b\n  name: \"x\"\n\x7d" :=
  ⟨by rfl, by rfl, by decide⟩

/-- Witness for C8: the amended theorem atturned the counterexample haystack
shows the returned block does contain the name line. -/
theorem C8_witness : nameLineMatch bpWs (S "x") = true :=
  ((C8_locator bpWs (S "x") (by decide)).2 bpWs (by rfl)).1

/-- C9 as stated is false: an `Err` can arise from the module-name input —
compiling the pattern interpolated from the name `(` fails. -/
theorem C9_cex : find_module_source [] (S "(") = .error "regex parse error" := by rfl

/-- C9 amended: for every haystack — malformed or not — and every name made
of regex-literal characters, `find_module_source` never answers `Err`; and
whether it answers `Err` never depends on the haystack, only on the name
(on which it does depend, per the counterexample). -/
theorem C9_err_only_from_name :
    (∀ haystack name : Str, name.all regexLiteralChar = true →
      exceptIsOk (find_module_source haystack name) = true) ∧
    (∀ h1 h2 name : Str,
      exceptIsOk (find_module_source h1 name) =
        exceptIsOk (find_module_source h2 name)) := by
  constructor
  · intro haystack name hname
    rw [find_module_source, if_pos hname]
    rfl
  · intro h1 h2 name
    by_cases hname : name.all regexLiteralChar = true
    · rw [find_module_source, if_pos hname, find_module_source, if_pos hname]
      rfl
    · rw [find_module_source, if_neg hname, find_module_source, if_neg hname]

/-- Witness for C9: the amended theorem on the empty (malformed) haystack
and a literal-safe name. -/
theorem C9_witness : exceptIsOk (find_module_source [] (S "idmap2")) = true :=
  C9_err_only_from_name.1 [] (S "idmap2") (by decide)

end Amodinfo